import Mathlib

/-!
# Verification of the minigrep line-search core

Shallow embedding of the program's core (`src/lib.rs` of hobbescodes/minigrep)
and proofs of the specification's claims about it.

Rust strings are modelled as `List Char`.  Rust's `str::contains` performs
byte-level substring search on UTF-8; since a valid UTF-8 substring of a valid
UTF-8 string always falls on character boundaries, character-level substring
containment is an exact model.  Rust's `str::to_lowercase` is modelled
including its one context-sensitive mapping: capital sigma lowers to final
sigma `ς` at the end of a word (the Final_Sigma condition of
`map_uppercase_sigma` in std) and to `σ` elsewhere.  Its context-free
conversion table and the `Cased`/`Case_Ignorable` properties it consults are
embedded on the character ranges this development exercises (ASCII and
Greek), with all other characters left unchanged; the spec (sections 4.2
and 9) only requires consistent folding on the ASCII range and leaves the
wider folding scope implementation-defined.
-/

set_option autoImplicit false

namespace Minigrep

/-- Characters of a Lean string literal, used to write concrete test inputs. -/
def strChars (s : String) : List Char := s.data

/-- Remove a single trailing carriage return, as Rust's `str::lines` does to
each line that was terminated by `"\r\n"`. -/
def dropLastCR (l : List Char) : List Char :=
  if l.getLast? = some '\r' then l.dropLast else l

/-- Worker for `rustLines`: `acc` is the current (not yet terminated) line.
A `'\n'` emits the accumulated line with a trailing `'\r'` stripped; at the
end of input a nonempty accumulated line is emitted as is, an empty one is
not (so a trailing newline yields no extra empty line, and empty content
yields no lines), matching Rust's `str::lines`. -/
def linesGo : List Char → List Char → List (List Char)
  | acc, [] => if acc.isEmpty then [] else [acc]
  | acc, c :: cs =>
    if c = '\n' then dropLastCR acc :: linesGo [] cs
    else linesGo (acc ++ [c]) cs

/-- Model of Rust's `str::lines` as used by `contents.lines()` in both
search functions: split at `'\n'`, strip a `'\r'` immediately preceding a
`'\n'`, no empty line after a final line terminator. -/
def rustLines (s : List Char) : List (List Char) := linesGo [] s

/-- `leadsWith needle hay` holds when `needle` is an initial segment of
`hay` (helper for substring containment). -/
def leadsWith : List Char → List Char → Bool
  | [], _ => true
  | _ :: _, [] => false
  | a :: as, b :: bs => a = b && leadsWith as bs

/-- Model of Rust's `str::contains` for string patterns: `containsSub hay
needle` holds when `needle` occurs contiguously inside `hay`. -/
def containsSub : List Char → List Char → Bool
  | [], needle => needle.isEmpty
  | h :: t, needle => leadsWith needle (h :: t) || containsSub t needle

/-- `between lo hi n` holds when `lo ≤ n ≤ hi` (code-point range test). -/
def between (lo hi n : Nat) : Bool := decide (lo ≤ n ∧ n ≤ hi)

/-- The Unicode `Cased` property as consulted by `str::to_lowercase`'s
Final_Sigma rule, embedded on the character ranges this development
exercises (ASCII letters and the Greek alphabet); characters outside them
are treated as not cased, per the spec's implementation-defined folding
scope beyond ASCII. -/
def isCased (c : Char) : Bool :=
  between 0x41 0x5A c.toNat || between 0x61 0x7A c.toNat ||
    between 0x391 0x3A9 c.toNat || between 0x3B1 0x3C9 c.toNat

/-- The Unicode `Case_Ignorable` property as consulted by the Final_Sigma
rule, embedded on a documented subset (apostrophe U+0027, middle dot U+00B7,
combining diacritics U+0300 to U+036F); other characters are treated as not
case-ignorable. -/
def isCaseIgnorable (c : Char) : Bool :=
  c.toNat = 0x27 || c.toNat = 0xB7 || between 0x300 0x36F c.toNat

/-- Rust std's `case_ignorable_then_cased`: skip case-ignorable characters,
then test whether the first remaining character is cased. -/
def caseIgnorableThenCased (l : List Char) : Bool :=
  match l.dropWhile (fun c => isCaseIgnorable c) with
  | [] => false
  | c :: _ => isCased c

/-- The context-free entries of the lowercase conversion table used by
`str::to_lowercase`, embedded on the ranges this development exercises
(ASCII and Greek capital letters); other characters map to themselves, per
the spec's implementation-defined folding scope beyond ASCII.  The result
is a list because Rust's table can expand one character to several.
Capital sigma never reaches the table: `lowerCharAt` intercepts it first,
exactly as the Rust loop does. -/
def lowerCharTab (c : Char) : List Char :=
  if between 0x41 0x5A c.toNat then [Char.ofNat (c.toNat + 0x20)]
  else if between 0x391 0x3A9 c.toNat then [Char.ofNat (c.toNat + 0x20)]
  else [c]

/-- One step of `str::to_lowercase` (the body of its character loop):
capital sigma is context-sensitive — Rust's `map_uppercase_sigma` lowers it
to final sigma `ς` exactly when it is preceded (skipping case-ignorables)
by a cased character and not followed (skipping case-ignorables) by one —
and every other character is lowered through the conversion table.
`revPrev` is the already-scanned prefix, most recent character first;
`rest` is the unscanned suffix. -/
def lowerCharAt (revPrev : List Char) (c : Char) (rest : List Char) : List Char :=
  if c = 'Σ' then
    (if caseIgnorableThenCased revPrev && !(caseIgnorableThenCased rest)
     then ['ς'] else ['σ'])
  else lowerCharTab c

/-- Worker for `rustToLowercase`: scan left to right, keeping the reversed
prefix for the Final_Sigma context test. -/
def toLowercaseGo : List Char → List Char → List Char
  | _, [] => []
  | revPrev, c :: rest =>
    lowerCharAt revPrev c rest ++ toLowercaseGo (c :: revPrev) rest

/-- Model of Rust's `str::to_lowercase`, including its one context-sensitive
mapping (Final_Sigma for capital sigma). -/
def rustToLowercase (s : List Char) : List Char := toLowercaseGo [] s

/-- Context-free character-wise lowering; agrees with `rustToLowercase` on
strings that contain no capital sigma (proof device). -/
def lowerEach : List Char → List Char
  | [] => []
  | c :: cs => lowerCharTab c ++ lowerEach cs

/-- The `for line in contents.lines()` loop of `search` (src/lib.rs lines
69-75): push each line containing the query onto the result vector. -/
def searchLoop (query : List Char) : List (List Char) → List (List Char) → List (List Char)
  | [], results => results
  | line :: rest, results =>
    if containsSub line query then searchLoop query rest (results ++ [line])
    else searchLoop query rest results

/-- Model of `search` (src/lib.rs lines 68-77): collect, in order, the lines
of `contents` that contain `query`. -/
def search (query contents : List Char) : List (List Char) :=
  searchLoop query (rustLines contents) []

/-- The `for line in contents.lines()` loop of `search_case_insensitive`
(src/lib.rs lines 83-87): push each line whose lowercased text contains the
(already lowercased) query. -/
def sciLoop (query : List Char) : List (List Char) → List (List Char) → List (List Char)
  | [], results => results
  | line :: rest, results =>
    if containsSub (rustToLowercase line) query then sciLoop query rest (results ++ [line])
    else sciLoop query rest results

/-- Model of `search_case_insensitive` (src/lib.rs lines 79-90): lowercase
the query once, then collect the lines whose lowercased text contains it,
returning the original line text. -/
def search_case_insensitive (query contents : List Char) : List (List Char) :=
  sciLoop (rustToLowercase query) (rustLines contents) []

/-- Model of the `Config` struct (src/lib.rs lines 8-12). -/
structure Config where
  query : List Char
  filename : List Char
  case_sensitive : Bool
  deriving DecidableEq, Repr

/-- Model of `Config::new` (src/lib.rs lines 18-40).  `env` is the result of
`std::env::var("CASE_INSENSITIVE")`: `some v` when the variable is present
with value `v`, `none` when it is absent, so `env.isNone` models
`env::var("CASE_INSENSITIVE").is_err()`. -/
def Config.new (env : Option (List Char)) (args : List (List Char)) :
    Except (List Char) Config :=
  if args.length < 3 then Except.error (strChars "not enough arguments")
  else Except.ok
    { query := args.getD 1 []
      filename := args.getD 2 []
      case_sensitive := env.isNone }

/-- The search selection inside `run` (src/lib.rs lines 52-56): the
case-sensitive search runs exactly when `config.case_sensitive` holds. -/
def runSearch (config : Config) (contents : List Char) : List (List Char) :=
  if config.case_sensitive then search config.query contents
  else search_case_insensitive config.query contents

/-! ## Helper lemmas -/

theorem searchLoop_eq_filter (query : List Char) :
    ∀ lines results : List (List Char),
      searchLoop query lines results =
        results ++ lines.filter (fun l => containsSub l query)
  | [], results => by simp [searchLoop]
  | line :: rest, results => by
    by_cases h : containsSub line query
    · simp [searchLoop, h, searchLoop_eq_filter query rest]
    · simp [searchLoop, h, searchLoop_eq_filter query rest]

theorem sciLoop_eq_filter (query : List Char) :
    ∀ lines results : List (List Char),
      sciLoop query lines results =
        results ++ lines.filter (fun l => containsSub (rustToLowercase l) query)
  | [], results => by simp [sciLoop]
  | line :: rest, results => by
    by_cases h : containsSub (rustToLowercase line) query
    · simp [sciLoop, h, sciLoop_eq_filter query rest]
    · simp [sciLoop, h, sciLoop_eq_filter query rest]

theorem search_eq_filter (query contents : List Char) :
    search query contents =
      (rustLines contents).filter (fun l => containsSub l query) := by
  simp [search, searchLoop_eq_filter]

theorem sci_eq_filter (query contents : List Char) :
    search_case_insensitive query contents =
      (rustLines contents).filter
        (fun l => containsSub (rustToLowercase l) (rustToLowercase query)) := by
  simp [search_case_insensitive, sciLoop_eq_filter]

theorem mem_search_iff (query contents l : List Char) :
    l ∈ search query contents ↔
      l ∈ rustLines contents ∧ containsSub l query = true := by
  simp [search_eq_filter, List.mem_filter]

theorem mem_sci_iff (query contents l : List Char) :
    l ∈ search_case_insensitive query contents ↔
      l ∈ rustLines contents ∧
        containsSub (rustToLowercase l) (rustToLowercase query) = true := by
  simp [sci_eq_filter, List.mem_filter]

theorem containsSub_nil : ∀ hay : List Char, containsSub hay [] = true
  | [] => rfl
  | _ :: t => by simp [containsSub, leadsWith, containsSub_nil t]

theorem leadsWith_iff : ∀ needle hay : List Char,
    leadsWith needle hay = true ↔ ∃ t, hay = needle ++ t
  | [], hay => by simp [leadsWith]
  | a :: as, [] => by
    constructor
    · intro h
      simp [leadsWith] at h
    · rintro ⟨t, ht⟩
      exact absurd ht.symm (List.cons_ne_nil a (as ++ t))
  | a :: as, b :: bs => by
    simp only [leadsWith, Bool.and_eq_true, decide_eq_true_eq,
      leadsWith_iff as bs, List.cons_append]
    constructor
    · rintro ⟨rfl, t, rfl⟩
      exact ⟨t, rfl⟩
    · rintro ⟨t, ht⟩
      injection ht with h1 h2
      exact ⟨h1.symm, t, h2⟩

theorem containsSub_iff : ∀ hay needle : List Char,
    containsSub hay needle = true ↔ ∃ s t, hay = s ++ needle ++ t
  | [], needle => by
    simp only [containsSub, List.isEmpty_iff]
    constructor
    · rintro rfl
      exact ⟨[], [], rfl⟩
    · rintro ⟨s, t, he⟩
      rcases List.append_eq_nil.mp he.symm with ⟨h1, rfl⟩
      rcases List.append_eq_nil.mp h1 with ⟨rfl, rfl⟩
      rfl
  | h :: tl, needle => by
    simp only [containsSub, Bool.or_eq_true, leadsWith_iff,
      containsSub_iff tl needle]
    constructor
    · rintro (⟨t, ht⟩ | ⟨s, t, ht⟩)
      · exact ⟨[], t, by simpa using ht⟩
      · exact ⟨h :: s, t, by simp [ht]⟩
    · rintro ⟨s, t, ht⟩
      cases s with
      | nil => exact Or.inl ⟨t, by simpa using ht⟩
      | cons x xs =>
        rw [List.cons_append] at ht
        injection ht with h1 h2
        exact Or.inr ⟨xs, t, h2⟩

theorem toLowercaseGo_nil (revPrev : List Char) :
    toLowercaseGo revPrev [] = [] := rfl

theorem toLowercaseGo_cons (revPrev : List Char) (c : Char) (rest : List Char) :
    toLowercaseGo revPrev (c :: rest) =
      lowerCharAt revPrev c rest ++ toLowercaseGo (c :: revPrev) rest := rfl

theorem toLowercaseGo_noSigma :
    ∀ q : List Char, 'Σ' ∉ q → ∀ revPrev t : List Char,
      toLowercaseGo revPrev (q ++ t) =
        lowerEach q ++ toLowercaseGo (q.reverse ++ revPrev) t
  | [], _, revPrev, t => by simp [lowerEach]
  | c :: cs, hq, revPrev, t => by
    have hc : c ≠ 'Σ' := fun hcc => hq (hcc ▸ List.mem_cons_self c cs)
    have hcs : 'Σ' ∉ cs := fun hm => hq (List.mem_cons_of_mem c hm)
    rw [List.cons_append, toLowercaseGo_cons,
      toLowercaseGo_noSigma cs hcs (c :: revPrev) t]
    simp [lowerEach, lowerCharAt, hc, List.append_assoc, List.reverse_cons,
      List.singleton_append]

theorem toLowercaseGo_front :
    ∀ s revPrev rest : List Char, ∃ X : List Char,
      toLowercaseGo revPrev (s ++ rest) =
        X ++ toLowercaseGo (s.reverse ++ revPrev) rest
  | [], _, _ => ⟨[], by simp⟩
  | c :: cs, revPrev, rest => by
    obtain ⟨X, hX⟩ := toLowercaseGo_front cs (c :: revPrev) rest
    refine ⟨lowerCharAt revPrev c (cs ++ rest) ++ X, ?_⟩
    rw [List.cons_append, toLowercaseGo_cons, hX]
    simp [List.append_assoc, List.reverse_cons, List.singleton_append]

theorem rustToLowercase_noSigma (q : List Char) (hq : 'Σ' ∉ q) :
    rustToLowercase q = lowerEach q := by
  have h := toLowercaseGo_noSigma q hq [] []
  rw [List.append_nil] at h
  show toLowercaseGo [] q = lowerEach q
  rw [h, toLowercaseGo_nil, List.append_nil]

theorem containsSub_toLower (q l : List Char) (hq : 'Σ' ∉ q)
    (h : containsSub l q = true) :
    containsSub (rustToLowercase l) (rustToLowercase q) = true := by
  obtain ⟨s, t, rfl⟩ := (containsSub_iff l q).mp h
  obtain ⟨X, hX⟩ := toLowercaseGo_front s [] (q ++ t)
  rw [containsSub_iff]
  refine ⟨X, toLowercaseGo (q.reverse ++ (s.reverse ++ [])) t, ?_⟩
  rw [rustToLowercase_noSigma q hq, List.append_assoc s q t,
    List.append_assoc X (lowerEach q)
      (toLowercaseGo (q.reverse ++ (s.reverse ++ [])) t)]
  show toLowercaseGo [] (s ++ (q ++ t)) =
    X ++ (lowerEach q ++ toLowercaseGo (q.reverse ++ (s.reverse ++ [])) t)
  rw [hX, toLowercaseGo_noSigma q hq]

theorem linesGo_nil (acc : List Char) :
    linesGo acc [] = if acc.isEmpty then [] else [acc] := rfl

theorem linesGo_cons (acc : List Char) (c : Char) (cs : List Char) :
    linesGo acc (c :: cs) =
      if c = '\n' then dropLastCR acc :: linesGo [] cs
      else linesGo (acc ++ [c]) cs := rfl

theorem isEmpty_append_cons (l : List Char) (c : Char) (cs : List Char) :
    (l ++ c :: cs).isEmpty = false := by
  cases l <;> rfl

theorem linesGo_no_newline :
    ∀ s acc : List Char, '\n' ∉ s →
      linesGo acc s = if (acc ++ s).isEmpty then [] else [acc ++ s]
  | [], acc, _ => by simp [linesGo_nil]
  | c :: cs, acc, h => by
    have hc : c ≠ '\n' := fun hc => h (hc ▸ List.mem_cons_self c cs)
    have hcs : '\n' ∉ cs := fun hm => h (List.mem_cons_of_mem c hm)
    rw [linesGo_cons, if_neg hc, linesGo_no_newline cs (acc ++ [c]) hcs]
    simp [isEmpty_append_cons]

theorem linesGo_split :
    ∀ a acc rest : List Char, '\n' ∉ a →
      linesGo acc (a ++ '\n' :: rest) = dropLastCR (acc ++ a) :: linesGo [] rest
  | [], acc, rest, _ => by simp [linesGo]
  | c :: cs, acc, rest, h => by
    have hc : c ≠ '\n' := fun hc => h (hc ▸ List.mem_cons_self c cs)
    have hcs : '\n' ∉ cs := fun hm => h (List.mem_cons_of_mem c hm)
    rw [List.cons_append, linesGo_cons, if_neg hc,
      linesGo_split cs (acc ++ [c]) rest hcs, List.append_assoc,
      List.singleton_append]

theorem linesGo_append_newline :
    ∀ s : List Char, s ≠ [] → s.getLast? ≠ some '\n' → s.getLast? ≠ some '\r' →
      ∀ acc : List Char, linesGo acc (s ++ ['\n']) = linesGo acc s
  | [], h, _, _, _ => absurd rfl h
  | [c], _, h1, h2, acc => by
    have hc : c ≠ '\n' := by simpa using h1
    have hr : c ≠ '\r' := by simpa using h2
    simp [linesGo, hc, dropLastCR, List.getLast?_concat, hr, linesGo_nil,
      isEmpty_append_cons]
  | c :: c' :: cs, _, h1, h2, acc => by
    have h1' : (c' :: cs).getLast? ≠ some '\n' := by
      simpa [List.getLast?_cons_cons] using h1
    have h2' : (c' :: cs).getLast? ≠ some '\r' := by
      simpa [List.getLast?_cons_cons] using h2
    by_cases hc : c = '\n'
    · rw [List.cons_append, linesGo_cons acc c ((c' :: cs) ++ ['\n']), if_pos hc,
        linesGo_append_newline (c' :: cs) (by simp) h1' h2' [],
        linesGo_cons acc c (c' :: cs), if_pos hc]
    · rw [List.cons_append, linesGo_cons acc c ((c' :: cs) ++ ['\n']), if_neg hc,
        linesGo_append_newline (c' :: cs) (by simp) h1' h2' (acc ++ [c]),
        linesGo_cons acc c (c' :: cs), if_neg hc]

/-! ## Claims -/

/-- Claim C1, counterexample: with the CASE_INSENSITIVE variable present (here
with the empty value), `Config::new` does NOT set `case_sensitive` to `true`,
contrary to the claim that presence forces the case-sensitive search. -/
theorem c1_counterexample :
    ¬ ((Config.new (some (strChars "")) [strChars "minigrep", strChars "needle",
        strChars "poem.txt"]).map Config.case_sensitive = Except.ok true) := by
  intro h
  have e : (Config.new (some (strChars "")) [strChars "minigrep", strChars "needle",
      strChars "poem.txt"]).map Config.case_sensitive = Except.ok false := rfl
  rw [e] at h
  exact Bool.false_ne_true (Except.ok.inj h)

/-- Claim C1 (amended): `Config::new` sets `case_sensitive` to `true` exactly
when the CASE_INSENSITIVE variable is absent; when it is absent `run` performs
the case-sensitive search, and when it is present (any value, including empty)
`run` performs the case-insensitive search. -/
theorem c1_env_toggle (env : Option (List Char)) (p q f : List Char)
    (rest : List (List Char)) (contents : List Char) (cfg : Config)
    (h : Config.new env (p :: q :: f :: rest) = Except.ok cfg) :
    (env = none → cfg.case_sensitive = true ∧
      runSearch cfg contents = search cfg.query contents) ∧
    (∀ v, env = some v → cfg.case_sensitive = false ∧
      runSearch cfg contents = search_case_insensitive cfg.query contents) := by
  have hlen : ¬ (p :: q :: f :: rest).length < 3 := by
    simp only [List.length_cons]
    omega
  rw [Config.new, if_neg hlen] at h
  have e : cfg = ⟨(p :: q :: f :: rest).getD 1 [], (p :: q :: f :: rest).getD 2 [],
      env.isNone⟩ := (Except.ok.inj h).symm
  subst e
  constructor
  · intro he
    subst he
    exact ⟨rfl, by simp [runSearch]⟩
  · intro v he
    subst he
    exact ⟨rfl, by simp [runSearch]⟩

theorem c1_env_toggle_witness :
    runSearch ⟨strChars "q", strChars "poem.txt", true⟩ (strChars "quick") =
      search (strChars "q") (strChars "quick") := by
  have h := c1_env_toggle none (strChars "minigrep") (strChars "q")
    (strChars "poem.txt") [] (strChars "quick")
    ⟨strChars "q", strChars "poem.txt", true⟩ rfl
  exact (h.1 rfl).2

/-- Claim C2, counterexample: case-insensitive matching is NOT universally
more permissive.  For the query holding capital alpha and capital sigma, and
content holding capital alpha, capital sigma, capital beta on one line,
`search` matches the line; but lowercasing maps the query's word-final sigma
to final sigma `ς`, while the same sigma inside the line, followed by a
cased letter, maps to `σ` — and the lowercased line does not contain the
lowercased query, so `search_case_insensitive` returns nothing. -/
theorem c2_counterexample :
    strChars "ΑΣΒ" ∈ search (strChars "ΑΣ") (strChars "ΑΣΒ") ∧
      strChars "ΑΣΒ" ∉ search_case_insensitive (strChars "ΑΣ") (strChars "ΑΣΒ") := by
  decide

/-- Claim C2 (amended): for every query that contains no capital sigma —
the one context-sensitive mapping of the lowercasing — every line matched by
the case-sensitive `search` is also matched by `search_case_insensitive`. -/
theorem c2_ci_superset (q c l : List Char) (hq : 'Σ' ∉ q)
    (h : l ∈ search q c) : l ∈ search_case_insensitive q c := by
  rw [mem_search_iff] at h
  rw [mem_sci_iff]
  exact ⟨h.1, containsSub_toLower q l hq h.2⟩

theorem c2_ci_superset_witness :
    strChars "abc" ∈ search_case_insensitive (strChars "a") (strChars "abc") :=
  c2_ci_superset (strChars "a") (strChars "abc") (strChars "abc") (by decide)
    (by decide)

/-- Claim C3: `search` returns exactly the lines of the content that contain
the query as a substring, each such line once (however many occurrences of the
query it holds), in the content's order: the result is the in-order filter of
the lines by containment, hence a sublist of the lines. -/
theorem c3_search_exact (q c : List Char) :
    search q c = (rustLines c).filter (fun l => containsSub l q) ∧
      (search q c).Sublist (rustLines c) := by
  refine ⟨search_eq_filter q c, ?_⟩
  rw [search_eq_filter]
  exact List.filter_sublist _

/-- Claim C4: with the empty query, `search` returns every line of the
content, unchanged and in order. -/
theorem c4_empty_query (c : List Char) : search (strChars "") c = rustLines c := by
  have e : strChars "" = ([] : List Char) := rfl
  rw [search_eq_filter, e]
  simp [containsSub_nil]

/-- Claim C5: the two concrete examples — `search "duct"` on the first poem
returns exactly the productive line, and `search_case_insensitive "rUsT"` on
the second poem returns exactly the Rust and Trust lines. -/
theorem c5_examples :
    search (strChars "duct")
        (strChars "Rust:\nsafe, fast, productive.\nPick three.\nDuct tape.") =
      [strChars "safe, fast, productive."] ∧
    search_case_insensitive (strChars "rUsT")
        (strChars "Rust:\nsafe, fast, productive.\nPick three.\nTrust me.") =
      [strChars "Rust:", strChars "Trust me."] :=
  ⟨rfl, rfl⟩

/-- Claim C6: `Config::new` returns an error exactly when the argument vector
(including the program name) has length below 3, and otherwise succeeds with
the first and second positional arguments as query and filename. -/
theorem c6_config_errors (env : Option (List Char)) (args : List (List Char)) :
    ((∃ e, Config.new env args = Except.error e) ↔ args.length < 3) ∧
    (3 ≤ args.length → ∃ cfg, Config.new env args = Except.ok cfg ∧
      cfg.query = args.getD 1 [] ∧ cfg.filename = args.getD 2 []) := by
  constructor
  · constructor
    · rintro ⟨e, he⟩
      by_contra hlen
      rw [Config.new, if_neg hlen] at he
      exact Except.noConfusion he
    · intro hlen
      exact ⟨strChars "not enough arguments", by rw [Config.new, if_pos hlen]⟩
  · intro hlen
    have hneg : ¬ args.length < 3 := Nat.not_lt.mpr hlen
    refine ⟨⟨args.getD 1 [], args.getD 2 [], env.isNone⟩, ?_, rfl, rfl⟩
    rw [Config.new, if_neg hneg]

theorem c6_config_errors_witness :
    ∃ cfg, Config.new none [strChars "minigrep", strChars "needle",
        strChars "poem.txt"] = Except.ok cfg ∧
      cfg.query = [strChars "minigrep", strChars "needle",
        strChars "poem.txt"].getD 1 [] ∧
      cfg.filename = [strChars "minigrep", strChars "needle",
        strChars "poem.txt"].getD 2 [] :=
  (c6_config_errors none [strChars "minigrep", strChars "needle",
    strChars "poem.txt"]).2 (by decide)

/-- Claim C7: every line returned by `search_case_insensitive` is a line of
the content exactly as it appears there — lowercasing is only used for the
comparison, never applied to the returned text. -/
theorem c7_original_lines (q c l : List Char)
    (h : l ∈ search_case_insensitive q c) : l ∈ rustLines c :=
  ((mem_sci_iff q c l).mp h).1

theorem c7_original_lines_witness :
    strChars "Ab" ∈ rustLines (strChars "Ab\ncd") :=
  c7_original_lines (strChars "aB") (strChars "Ab\ncd") (strChars "Ab")
    (by decide)

/-- Claim C8, counterexample: empty content contains no newline, yet it is
split into no lines at all rather than a single (empty) line — so
`search` over it returns nothing even for the universally-matching empty
query. -/
theorem c8_counterexample :
    ('\n' ∉ strChars "") ∧ rustLines (strChars "") ≠ [strChars ""] ∧
      search (strChars "") (strChars "") = [] := by
  decide

/-- Claim C8 (amended): a line is the text between consecutive newline
delimiters (with a carriage return immediately before a newline stripped); a
trailing newline produces no extra empty final line; NONEMPTY content with no
newline is a single line (empty content yields no lines); and appending a
trailing newline leaves the lines unchanged provided the content is nonempty
and ends in neither a newline nor a carriage return. -/
theorem c8_line_splitting (s a rest : List Char) :
    ('\n' ∉ a → rustLines (a ++ '\n' :: rest) = dropLastCR a :: rustLines rest) ∧
    (s ≠ [] → '\n' ∉ s → rustLines s = [s]) ∧
    (s ≠ [] → s.getLast? ≠ some '\n' → s.getLast? ≠ some '\r' →
      rustLines (s ++ ['\n']) = rustLines s) := by
  refine ⟨?_, ?_, ?_⟩
  · intro h
    have e := linesGo_split a [] rest h
    simpa [rustLines] using e
  · intro h1 h2
    cases s with
    | nil => exact absurd rfl h1
    | cons x xs =>
      have e := linesGo_no_newline (x :: xs) [] h2
      simpa [rustLines] using e
  · intro h1 h2 h3
    exact linesGo_append_newline s h1 h2 h3 []

theorem c8_line_splitting_witness :
    rustLines (strChars "ab" ++ '\n' :: strChars "cd") =
        dropLastCR (strChars "ab") :: rustLines (strChars "cd") ∧
      rustLines (strChars "ab") = [strChars "ab"] ∧
      rustLines (strChars "ab" ++ ['\n']) = rustLines (strChars "ab") := by
  have h := c8_line_splitting (strChars "ab") (strChars "ab") (strChars "cd")
  exact ⟨h.1 (by decide), h.2.1 (by decide) (by decide),
    h.2.2 (by decide) (by decide) (by decide)⟩

/-- Claim C9: both searches are total functions of (query, content) — they
are defined for every input as structurally recursive functions and their
result is always a (possibly empty) selection of the content's lines. -/
theorem c9_totality (q c : List Char) :
    (search q c).Sublist (rustLines c) ∧
      (search_case_insensitive q c).Sublist (rustLines c) := by
  rw [search_eq_filter, sci_eq_filter]
  exact ⟨List.filter_sublist _, List.filter_sublist _⟩

/-- Claim C10: `Config::new` accepts any argument vector with three or more
entries, taking the first positional argument as query and the second as
filename and ignoring everything beyond them. -/
theorem c10_extra_args_accepted (env : Option (List Char)) (p q f : List Char)
    (rest : List (List Char)) :
    Config.new env (p :: q :: f :: rest) = Except.ok ⟨q, f, env.isNone⟩ := by
  have hlen : ¬ (p :: q :: f :: rest).length < 3 := by
    simp only [List.length_cons]
    omega
  rw [Config.new, if_neg hlen]
  rfl

end Minigrep
